import Mathlib

/-!
Shallow embedding of the symbol management module (src/utils/symbol.c) of a
dynamic function tracer, together with proofs checking the natural-language
specification against it.  Machine integers are modelled as Nat with explicit
reduction modulo 2^64 (unsigned long) and 2^32 (unsigned int) where the C code
can overflow.  File reading and ELF parsing are modelled by passing the parsed
records (or parse-failure markers) as explicit inputs; everything the C code
does with those records is translated statement by statement.
-/

namespace Uftrace

/-- Modulus of the C type unsigned long (64-bit). -/
def M64 : Nat := 18446744073709551616

/-- Modulus of the C type unsigned int (32-bit). -/
def M32 : Nat := 4294967296

/-- Subtraction a - b on unsigned 64-bit values, as the C code computes it. -/
def u64sub (a b : Nat) : Nat := (a + (M64 - b % M64)) % M64

/-- struct sym: one symbol.  The type field is the enum symtype, whose values
are the character codes used in the cache file format (spec, allow-set TtwPK
plus the unknown marker). -/
structure Sym where
  addr : Nat
  size : Nat
  type : Char
  name : String
deriving Repr, DecidableEq, Inhabited

/-- Zero value used where the C code would read uninitialized or out-of-range
memory; the guards in the translated code keep it from being observed. -/
def symDefault : Sym := ⟨0, 0, '?', ""⟩

def ST_LOCAL : Char := 't'
def ST_GLOBAL : Char := 'T'
def ST_WEAK : Char := 'w'
def ST_PLT : Char := 'P'
def ST_KERNEL : Char := 'K'
def ST_UNKNOWN : Char := '?'

/-- The (address, type, name) triple of a symbol, the data the round-trip
property talks about. -/
def tri (s : Sym) : Nat × Char × String := (s.addr, s.type, s.name)

/-- Comparator addrsort, as a total order on the address field. -/
def addrLe (a b : Sym) : Prop := a.addr ≤ b.addr

instance : DecidableRel addrLe := fun a b => Nat.decLe a.addr b.addr

/-- qsort(sym, nr, sizeof, addrsort): sorting by ascending address.  qsort is
unstable; we model it with a stable sort, which is one of the orders qsort may
produce, and use it only where ties are absent or tied entries are equal. -/
def sortByAddr (l : List Sym) : List Sym := l.insertionSort addrLe

/-- Comparator namesort (strcmp on the name field). -/
def nameLe (a b : Sym) : Prop := a.name ≤ b.name

instance : DecidableRel nameLe := fun a b => inferInstanceAs (Decidable (a.name ≤ b.name))

/-- qsort(sym_names, nr, sizeof, namesort): the name-sorted index sequence,
modelled as a sorted sequence of the symbol values themselves (the C code
stores pointers into the primary array). -/
def sortByName (l : List Sym) : List Sym := l.insertionSort nameLe

/-- Pairwise no-overlap relation between address-ordered symbols. -/
def disjointR (a b : Sym) : Prop := a.addr + a.size ≤ b.addr

instance : DecidableRel disjointR := fun a b => Nat.decLe (a.addr + a.size) b.addr

instance : IsTrans Sym disjointR :=
  ⟨fun _ b _ hab hbc =>
    Nat.le_trans (Nat.le_trans hab (Nat.le_add_right b.addr b.size)) hbc⟩

/-- The invariant claimed for loaded static tables: strictly increasing
addresses and no overlap between adjacent entries. -/
def tableInvariant (l : List Sym) : Prop :=
  l.Chain' fun a b => a.addr < b.addr ∧ a.addr + a.size ≤ b.addr

instance (l : List Sym) : Decidable (tableInvariant l) :=
  inferInstanceAs
    (Decidable (l.Chain' fun a b : Sym => a.addr < b.addr ∧ a.addr + a.size ≤ b.addr))

/-- bsearch with comparator addrfind: binary search over the window [lo, hi)
of the address-sorted array.  addrfind reports a hit when
sym.addr <= addr < sym.addr + sym.size, "go left" when sym.addr > addr and
"go right" otherwise. -/
def bsearchGo (syms : List Sym) (addr : Nat) (lo hi : Nat) : Option Sym :=
  if h : lo < hi then
    let mid := (lo + hi) / 2
    let s := syms.getD mid symDefault
    if addr < s.addr then bsearchGo syms addr lo mid
    else if addr < s.addr + s.size then some s
    else bsearchGo syms addr (mid + 1) hi
  else none
termination_by hi - lo
decreasing_by
  · omega
  · omega

/-- bsearch(addr, sym, nr_sym, sizeof, addrfind) over the whole array. -/
def bsearchAddr (syms : List Sym) (addr : Nat) : Option Sym :=
  bsearchGo syms addr 0 syms.length

/-- struct symtab: the primary sequence plus the secondary index sequence.
The C sym_names array holds pointers into sym; we model it as the sequence of
pointed-to symbol values. -/
structure Symtab where
  sym : List Sym
  sym_names : List Sym
  name_sorted : Bool
deriving Repr, DecidableEq, Inhabited

def emptySymtab : Symtab := ⟨[], [], false⟩

/-- One entry of the ftrace_proc_maps list.  Its per-module table is taken
here in its populated state; the lazy on-demand population in find_symtabs is
file input, performed before the search that this embedding models. -/
structure ProcMap where
  start : Nat
  stop : Nat
  symtab : Symtab
deriving Repr, DecidableEq, Inhabited

/-- struct symtabs: the static table, the dynamic (PLT) table and the memory
map list of one process. -/
structure Symtabs where
  symtab : Symtab
  dsymtab : Symtab
  maps : List ProcMap
deriving Repr, DecidableEq, Inhabited

/-! ## ELF static-symbol loader (load_symtab) -/

/-- One record of the .symtab (or fallback .dynsym) section as the loader
reads it: bad stands for a gelf_getsym failure (corrupt symbol entry), ok
carries st_value, st_size, the binding GELF_ST_BIND, whether the entry is
STT_FUNC, and the name string. -/
inductive ElfSymEntry where
  | bad : ElfSymEntry
  | ok (value size bind : Nat) (is_func : Bool) (name : String) : ElfSymEntry
deriving Repr, DecidableEq

/-- Binding classification of load_symtab: STB_LOCAL = 0, STB_GLOBAL = 1,
STB_WEAK = 2 (ELF constants), anything else becomes ST_UNKNOWN. -/
def elfBindType (bind : Nat) : Char :=
  if bind = 0 then ST_LOCAL
  else if bind = 1 then ST_GLOBAL
  else if bind = 2 then ST_WEAK
  else ST_UNKNOWN

/-- strchr(name, at-sign) truncation: the version suffix is removed before the
name is stored.  String contents are modelled as their character sequences
(the C code works on bytes; the names are byte-per-character strings). -/
def stripVersion (n : String) : String := ⟨n.data.takeWhile (· ≠ '@')⟩

/-- The symbol-reading loop of load_symtab (lines 185-247).  Returns (errored,
accumulated table): a bad entry takes the elf_error exit, which leaves the
symbols read so far in the table.  Zero-sized and non-function entries are
skipped. -/
def loadSymtabLoop (demangle : String → String) (fl_demangle : Bool)
    (offset : Nat) : List ElfSymEntry → List Sym → Bool × List Sym
  | [], acc => (false, acc)
  | .bad :: _, acc => (true, acc)
  | .ok v sz bind fn nm :: rest, acc =>
    if sz = 0 then loadSymtabLoop demangle fl_demangle offset rest acc
    else if ¬fn then loadSymtabLoop demangle fl_demangle offset rest acc
    else
      let base := stripVersion nm
      let stored := if fl_demangle then demangle base else base
      loadSymtabLoop demangle fl_demangle offset rest
        (acc ++ [⟨(v + offset) % M64, sz % M32, elfBindType bind, stored⟩])

/-- The inner while loop of the duplicate-removal pass (lines 259-267): while
sym[i] and sym[i+1] share an address, memmove the tail one slot down (erase
index i+1) and stop early once i + 2 >= nr_sym. -/
def dedupInner (l : List Sym) (i : Nat) : List Sym :=
  if h : i + 1 < l.length ∧ (l.getD i symDefault).addr = (l.getD (i + 1) symDefault).addr then
    if i + 2 ≥ (l.eraseIdx (i + 1)).length then l.eraseIdx (i + 1)
    else dedupInner (l.eraseIdx (i + 1)) i
  else l
termination_by l.length
decreasing_by
  rw [List.length_eraseIdx_of_lt h.1]
  omega

theorem dedupInner_length_le (l : List Sym) (i : Nat) :
    (dedupInner l i).length ≤ l.length := by
  induction l, i using dedupInner.induct with
  | case1 l i h h2 =>
    unfold dedupInner
    rw [dif_pos h, if_pos h2, List.length_eraseIdx_of_lt h.1]
    omega
  | case2 l i h h2 ih =>
    unfold dedupInner
    rw [dif_pos h, if_neg h2]
    have := List.length_eraseIdx_of_lt h.1
    omega
  | case3 l i h =>
    unfold dedupInner
    rw [dif_neg h]

/-- The outer for loop of the duplicate-removal pass (lines 255-268); the
bound nr_sym - 1 is re-evaluated against the shrinking table. -/
def dedupLoop (l : List Sym) (i : Nat) : List Sym :=
  if _h : i < l.length - 1 then dedupLoop (dedupInner l i) (i + 1)
  else l
termination_by l.length - i
decreasing_by
  have := dedupInner_length_le l i
  omega

/-- The parsed view of an ELF image as the static loader consumes it.
header_ok covers the header-level failure exits (elf_begin, elf_getphdrnum,
gelf_getphdr, elf_getshdrstrndx, gelf_getshdr, elf_getdata); ptload_vaddr is
the p_vaddr of the first PT_LOAD program header; entries is none when neither
.symtab nor .dynsym exists, otherwise the records of the chosen section. -/
structure ElfStaticView where
  header_ok : Bool
  ptload_vaddr : Option Nat
  entries : Option (List ElfSymEntry)
deriving Repr, DecidableEq

/-- Offset adjustment of load_symtab and load_dynsymtab under
SYMTAB_FL_ADJ_OFFSET: offset -= p_vaddr of the first PT_LOAD segment, in
unsigned 64-bit arithmetic. -/
def adjustOffset (fl_adjust : Bool) (offset : Nat) (ptload_vaddr : Option Nat) : Nat :=
  if fl_adjust then
    match ptload_vaddr with
    | some v => u64sub offset v
    | none => offset
  else offset

/-- load_symtab: returns the C result code (0 success, -1 failure) and the
table.  On the elf_error exit taken inside the symbol loop the symbols read so
far stay in the table, unsorted and without the duplicate-removal pass or the
name index (the C code does not unload them). -/
def load_symtab (demangle : String → String) (fl_demangle fl_adjust : Bool)
    (img : ElfStaticView) (offset : Nat) : Int × Symtab :=
  if ¬img.header_ok then (-1, emptySymtab)
  else
    match img.entries with
    | none => (-1, emptySymtab)
    | some entries =>
      let off := adjustOffset fl_adjust offset img.ptload_vaddr
      match loadSymtabLoop demangle fl_demangle off entries [] with
      | (true, acc) => (-1, ⟨acc, [], false⟩)
      | (false, acc) =>
        if acc.length = 0 then (-1, emptySymtab)
        else
          let dd := dedupLoop (sortByAddr acc) 0
          (0, ⟨dd, sortByName dd, true⟩)

/-! ## ELF dynamic/PLT-symbol loader (load_dynsymtab, sort_dynsymtab) -/

/-- sort_dynsymtab: snapshot the current address of every entry into the
sym_names storage, qsort the primary array by address, then re-resolve each
saved address to the first entry of the sorted array carrying that address.
The table is marked not name-sorted. -/
def sort_dynsymtab (syms : List Sym) : Symtab :=
  let saved := syms.map Sym.addr
  let sorted := sortByAddr syms
  let names := saved.map fun a =>
    match sorted.find? (fun s => s.addr == a) with
    | some s => s
    | none => symDefault
  ⟨sorted, names, false⟩

/-- find_dynsym: bounds check against nr_sym, then index into the sym_names
array, which after sort_dynsymtab holds the entries in original slot order. -/
def find_dynsym (dt : Symtab) (idx : Nat) : Option Sym :=
  if idx ≥ dt.sym.length then none
  else some (dt.sym_names.getD idx symDefault)

/-- count_dynsym. -/
def count_dynsym (dt : Symtab) : Nat := dt.sym.length

/-- One PLT relocation record as load_dynsymtab consumes it: bad stands for a
gelf_getrela / gelf_getrel failure; ok carries the referenced dynamic symbol's
st_value, whether that symbol is STT_FUNC, and its name. -/
inductive RelEntry where
  | bad : RelEntry
  | ok (st_value : Nat) (is_func : Bool) (name : String) : RelEntry
deriving Repr, DecidableEq

/-- The relocation loop of load_dynsymtab (lines 415-465), iterating in
on-disk order with running index idx.  The address is st_value if nonzero,
else plt_addr + (idx + 1) * plt_entsize; the offset is added only under
SYMTAB_FL_ADJ_OFFSET; non-function targets get address 0 after that.  A bad
record takes the elf_error exit, which unloads the whole table. -/
def loadDynLoop (demangle : String → String) (fl_demangle fl_adjust : Bool)
    (offset plt_addr plt_entsize : Nat) :
    List RelEntry → Nat → List Sym → Option (List Sym)
  | [], _, acc => some acc
  | .bad :: _, _, _ => none
  | .ok v fn nm :: rest, idx, acc =>
    let a0 := if v ≠ 0 then v else (plt_addr + (idx + 1) * plt_entsize) % M64
    let a1 := if fl_adjust then (a0 + offset) % M64 else a0
    let a2 := if fn then a1 else 0
    let stored := if fl_demangle then demangle nm else nm
    loadDynLoop demangle fl_demangle fl_adjust offset plt_addr plt_entsize rest (idx + 1)
      (acc ++ [⟨a2, plt_entsize % M32, ST_PLT, stored⟩])

/-- The parsed view of an ELF image as the dynamic loader consumes it.
plt_addr and plt_entsize come from the .plt section header (plt_addr stays 0
when the section is absent); rel_entries is none when neither .rela.plt nor
.rel.plt exists. -/
structure ElfDynView where
  header_ok : Bool
  ptload_vaddr : Option Nat
  has_dynsym : Bool
  plt_addr : Nat
  plt_entsize : Nat
  rel_entries : Option (List RelEntry)
deriving Repr, DecidableEq

/-- load_dynsymtab: missing dynamic symbols or PLT is not an error (result 0,
empty table); missing relocation info is a failure; a corrupt relocation
record mid-parse unloads the table (the elf_error path calls
__unload_symtab). -/
def load_dynsymtab (demangle : String → String) (fl_demangle fl_adjust : Bool)
    (img : ElfDynView) (offset : Nat) : Int × Symtab :=
  if ¬img.header_ok then (-1, emptySymtab)
  else
    let off := adjustOffset fl_adjust offset img.ptload_vaddr
    if ¬img.has_dynsym ∨ img.plt_addr = 0 then (0, emptySymtab)
    else
      match img.rel_entries with
      | none => (-1, emptySymtab)
      | some rels =>
        match loadDynLoop demangle fl_demangle fl_adjust off img.plt_addr
            img.plt_entsize rels 0 [] with
        | none => (-1, emptySymtab)
        | some acc =>
          if acc.length = 0 then (-1, emptySymtab)
          else (0, sort_dynsymtab acc)

/-! ## Symbol-cache file reader (load_symbol_file) -/

/-- One accepted-format line of a cache file, after the textual parse of
load_symbol_file: the 16-hex-digit address, the single type letter and the
name truncated at the first tab.  The textual encoding is faithful for names
free of newline and tab characters. -/
structure SLine where
  addr : Nat
  type : Char
  name : String
deriving Repr, DecidableEq, Inhabited

/-- The allow-set of type letters, allowed_types = "TtwPK". -/
def allowed_types : List Char := ['T', 't', 'w', 'P', 'K']

def allowed (t : Char) : Bool := allowed_types.contains t

/-- The in-place SyS_ to sys_ rename applied to the stored name when a
duplicate line arrives: strncmp checks that the stored name begins with SyS_
and the incoming one with sys_ with equal remainders, then strncpy overwrites
the first four characters of the stored name. -/
def sysRename (stored incoming : String) : String :=
  if (⟨stored.data.take 4⟩ : String) = "SyS_" ∧ (⟨incoming.data.take 4⟩ : String) = "sys_" ∧
      (⟨stored.data.drop 4⟩ : String) = ⟨incoming.data.drop 4⟩ then
    ⟨incoming.data.take 4 ++ stored.data.drop 4⟩
  else stored

/-- Replace the last element of a list, if any; models writing through
stab->sym[stab->nr_sym - 1].  (On an empty table the C code would index out
of bounds; the model makes that case a no-op, and no reachable input hits
it.) -/
def updateLast (l : List Sym) (f : Sym → Sym) : List Sym :=
  match l with
  | [] => []
  | [x] => [f x]
  | x :: xs => x :: updateLast xs f

/-- Append a parsed symbol and back-fill the previous symbol's size as the
address difference (line 693: executed when the table now has more than one
entry; the difference is u64 arithmetic truncated into the u32 size field). -/
def appendSym (l : List Sym) (new : Sym) : List Sym :=
  match l with
  | [] => [new]
  | _ => (updateLast l fun p => { p with size := u64sub new.addr p.addr % M32 }) ++ [new]

/-- The running state of the cache-file read loop: the two growing tables,
which of them the stab pointer currently designates, and the
previously-accepted (address, type) pair.  prev_addr starts as (unsigned
long)-1 and prev_type as the letter X. -/
structure LoadState where
  stat : List Sym
  dyn : List Sym
  curDyn : Bool
  prev_addr : Nat
  prev_type : Char
deriving Repr, DecidableEq

def initState : LoadState := ⟨[], [], false, M64 - 1, 'X'⟩

/-- One iteration of the getline loop of load_symbol_file (lines 614-694):
the duplicate check against the previous accepted pair comes first (with the
SyS_/sys_ rename applied to the last symbol of the table stab currently
points to), then the allow-set filter, then prev is updated, the symbol is
routed to the dynamic table exactly when its type letter is ST_PLT, appended
with the offset added to its address, its name demangled and size 0, and the
previous size is back-filled. -/
def processLine (demangle : String → String) (offset : Nat)
    (s : LoadState) (ln : SLine) : LoadState :=
  if ln.addr = s.prev_addr ∧ ln.type = s.prev_type then
    if s.curDyn then
      { s with dyn := updateLast s.dyn fun sym => { sym with name := sysRename sym.name ln.name } }
    else
      { s with stat := updateLast s.stat fun sym => { sym with name := sysRename sym.name ln.name } }
  else if ¬allowed ln.type then s
  else
    let newSym : Sym := ⟨(ln.addr + offset) % M64, 0, ln.type, demangle ln.name⟩
    if ln.type = ST_PLT then
      { stat := s.stat, dyn := appendSym s.dyn newSym, curDyn := true,
        prev_addr := ln.addr, prev_type := ln.type }
    else
      { stat := appendSym s.stat newSym, dyn := s.dyn, curDyn := false,
        prev_addr := ln.addr, prev_type := ln.type }

def processLines (demangle : String → String) (offset : Nat)
    (s : LoadState) (lines : List SLine) : LoadState :=
  lines.foldl (processLine demangle offset) s

/-- load_symbol_file: run the read loop over all lines, then sort the static
table by address and build its name index, and sort the dynamic table through
sort_dynsymtab unless it is empty (lines 697-716).  The demangler is the
external collaborator, passed in as a function. -/
def load_symbol_file (demangle : String → String) (lines : List SLine)
    (offset : Nat) : Symtabs :=
  let s := processLines demangle offset initState lines
  let stSym := sortByAddr s.stat
  let st : Symtab := ⟨stSym, sortByName stSym, true⟩
  let dt : Symtab := if s.dyn.length = 0 then emptySymtab else sort_dynsymtab s.dyn
  ⟨st, dt, []⟩

/-! ## Symbol-cache file writer (save_symbol_file) -/

/-- One fprintf line of the save loops: the symbol's address written relative
to the load offset in u64 arithmetic, its type letter and its name. -/
def wrLine (offset : Nat) (s : Sym) : SLine := ⟨u64sub s.addr offset, s.type, s.name⟩

/-- The synthetic trailing line each save loop emits when its table is
nonempty: address last.addr + last.size - offset, the last symbol's type, and
the reserved sentinel name. -/
def sentLines (name0 : String) (offset : Nat) (last? : Option Sym) : List SLine :=
  match last? with
  | some l => [⟨u64sub (l.addr + l.size) offset, l.type, name0⟩]
  | none => []

/-- The lines save_symbol_file produces (lines 776-794): first the dynamic
entries in sym_names order, then the synthetic __dynsym_end line computed
from the last entry of the address-sorted primary array, then the static
entries in primary order, then the synthetic __sym_end line.  The C entry
loop runs i up to nr_sym reading sym_names[i]; every table this module
builds keeps the two arrays the same length. -/
def save_lines (st dt : Symtab) (offset : Nat) : List SLine :=
  dt.sym_names.map (wrLine offset) ++
  sentLines "__dynsym_end" offset dt.sym.getLast? ++
  st.sym.map (wrLine offset) ++
  sentLines "__sym_end" offset st.sym.getLast?

/-- Outcome of save_symbol_file's interaction with the file system: the
fopen mode "wx" is exclusive-create, so an existing file makes the function
return silently; any other open failure reaches pr_err, which terminates the
calling operation; otherwise the cache lines are written. -/
inductive SaveOutcome where
  | skipped : SaveOutcome
  | fatal : SaveOutcome
  | written (lines : List SLine) : SaveOutcome
deriving Repr, DecidableEq

/-- save_symbol_file (lines 739-744 plus the write loops): file_exists makes
fopen fail with EEXIST, open_fails_otherwise models any other fopen failure.
The offset is the p_vaddr of the first PT_LOAD segment of the executable
(0 when the ELF cannot be re-opened, mirroring the do_it fallback). -/
def save_symbol_file (file_exists open_fails_otherwise : Bool)
    (st dt : Symtab) (offset : Nat) : SaveOutcome :=
  if file_exists then .skipped
  else if open_fails_otherwise then .fatal
  else .written (save_lines st dt offset)

/-! ## Address-space resolver (find_symtabs) and kernel table -/

/-- Modelled from the spec: is_kernel_address lives in utils.h, outside the
given sources.  Per the spec it is an address-range test against the
configured kernel address boundary, carried here as the parameter kbound. -/
def is_kernel_address (kbound addr : Nat) : Bool := kbound ≤ addr

/-- get_real_address: kernel addresses get the high bits above KADDR_SHIFT
set, computed as addr | (-1UL << kshift) in u64 arithmetic. -/
def get_real_address (kbound kshift addr : Nat) : Nat :=
  if is_kernel_address kbound addr then addr ||| ((M64 - 1) * 2 ^ kshift % M64)
  else addr

/-- load_kernel_symbol: read the canonical kernel symbol source with the
cache-file reader at offset 0 and forcibly retag every static entry as
ST_KERNEL (the C retag writes through the primary array that the name index
aliases, so both sequences are retagged).  none models the read failing. -/
def load_kernel_symbol (demangle : String → String)
    (kallsyms : Option (List SLine)) : Option Symtabs :=
  match kallsyms with
  | none => none
  | some lines =>
    let t := load_symbol_file demangle lines 0
    some { t with symtab := { t.symtab with
             sym := t.symtab.sym.map fun s => { s with type := ST_KERNEL },
             sym_names := t.symtab.sym_names.map fun s => { s with type := ST_KERNEL } } }

/-- find_symtabs: kernel addresses are answered from the process-wide kernel
table alone (none when it was never loaded); other addresses consult the main
static table, then the main dynamic table, then the first memory map whose
[start, stop) range holds the address, whose per-module table (populated on
demand from the cache file or the ELF image; modelled in populated form) is
searched last. -/
def find_symtabs (kbound kshift : Nat) (ktab : Option Symtab)
    (stabs : Symtabs) (addr : Nat) : Option Sym :=
  if is_kernel_address kbound addr then
    match ktab with
    | none => none
    | some kt => bsearchAddr kt.sym (get_real_address kbound kshift addr)
  else
    match bsearchAddr stabs.symtab.sym addr with
    | some s => some s
    | none =>
      match bsearchAddr stabs.dsymtab.sym addr with
      | some s => some s
      | none =>
        match stabs.maps.find? (fun m => m.start ≤ addr && addr < m.stop) with
        | some m => bsearchAddr m.symtab.sym addr
        | none => none

/-! ## Helper lemmas about sort_dynsymtab -/

theorem sort_dynsymtab_sym_length (syms : List Sym) :
    (sort_dynsymtab syms).sym.length = syms.length := by
  simp [sort_dynsymtab, sortByAddr, List.length_insertionSort]

theorem sort_dynsymtab_names_length (syms : List Sym) :
    (sort_dynsymtab syms).sym_names.length = syms.length := by
  simp [sort_dynsymtab]

theorem sort_dynsymtab_names_mem (syms : List Sym) (x : Sym)
    (hx : x ∈ (sort_dynsymtab syms).sym_names) : x ∈ (sort_dynsymtab syms).sym := by
  simp only [sort_dynsymtab, List.map_map, List.mem_map, Function.comp] at hx ⊢
  obtain ⟨y, hy, hxy⟩ := hx
  cases hfind : (sortByAddr syms).find? (fun s => s.addr == y.addr) with
  | none =>
    exfalso
    rw [List.find?_eq_none] at hfind
    have hmem : y ∈ sortByAddr syms := ((List.perm_insertionSort addrLe syms).mem_iff).mpr hy
    exact hfind y hmem (by simp)
  | some z =>
    have hz : z ∈ sortByAddr syms := List.mem_of_find?_eq_some hfind
    rw [hfind] at hxy
    simpa [← hxy] using hz

/-- The address re-resolution of sort_dynsymtab recovers the original entries
exactly when the addresses are pairwise distinct: the sym_names sequence then
holds the table in original slot order. -/
theorem sort_dynsymtab_sym_names_of_nodup (syms : List Sym)
    (hnd : (syms.map Sym.addr).Nodup) :
    (sort_dynsymtab syms).sym_names = syms := by
  simp only [sort_dynsymtab, List.map_map, Function.comp]
  conv_rhs => rw [← List.map_id syms]
  apply List.map_congr_left
  intro x hx
  cases hfind : (sortByAddr syms).find? (fun s => s.addr == x.addr) with
  | none =>
    exfalso
    rw [List.find?_eq_none] at hfind
    have hmem : x ∈ sortByAddr syms := ((List.perm_insertionSort addrLe syms).mem_iff).mpr hx
    exact hfind x hmem (by simp)
  | some z =>
    have hz : z ∈ syms :=
      ((List.perm_insertionSort addrLe syms).mem_iff).mp (List.mem_of_find?_eq_some hfind)
    have hza : z.addr = x.addr := by
      have := List.find?_some hfind
      simpa using this
    show (match List.find? (fun s => s.addr == x.addr) (sortByAddr syms) with
          | some s => s
          | none => symDefault) = x
    rw [hfind]
    exact List.inj_on_of_nodup_map hnd hz hx hza

/-! ## C10: find_dynsym bounds behaviour -/

/-- C10: for every dynamic table built by sort_dynsymtab and every index idx,
find_dynsym returns none exactly when idx is at least the number of dynamic
symbols, and otherwise returns an entry of the dynamic table. -/
theorem find_dynsym_bounds (syms : List Sym) (idx : Nat) :
    (syms.length ≤ idx → find_dynsym (sort_dynsymtab syms) idx = none) ∧
    (idx < syms.length →
      ∃ s, find_dynsym (sort_dynsymtab syms) idx = some s ∧
        s ∈ (sort_dynsymtab syms).sym) := by
  constructor
  · intro h
    unfold find_dynsym
    rw [if_pos]
    rw [sort_dynsymtab_sym_length]
    exact h
  · intro h
    refine ⟨(sort_dynsymtab syms).sym_names.getD idx symDefault, ?_, ?_⟩
    · unfold find_dynsym
      rw [if_neg]
      rw [sort_dynsymtab_sym_length]
      omega
    · apply sort_dynsymtab_names_mem
      have hlen : idx < (sort_dynsymtab syms).sym_names.length := by
        rw [sort_dynsymtab_names_length]; exact h
      rw [List.getD_eq_getElem _ _ hlen]
      exact List.getElem_mem hlen

/-- Witness for C10 at a concrete table and concrete in- and out-of-range
indices. -/
theorem find_dynsym_bounds_witness :
    find_dynsym (sort_dynsymtab [⟨2, 1, 'P', "a"⟩]) 1 = none ∧
    ∃ s, find_dynsym (sort_dynsymtab [⟨2, 1, 'P', "a"⟩]) 0 = some s ∧
      s ∈ (sort_dynsymtab [⟨2, 1, 'P', "a"⟩]).sym :=
  ⟨(find_dynsym_bounds [⟨2, 1, 'P', "a"⟩] 1).1 (by decide),
   (find_dynsym_bounds [⟨2, 1, 'P', "a"⟩] 0).2 (by decide)⟩

/-! ## C3: PLT slot preservation across the address sort -/

/-- C3 counterexample: two relocation entries sharing an address (as the
loader produces for any two non-function relocations, which both get address
0) make the re-resolution pass point both slots at the first sorted entry, so
slot 1 no longer returns the symbol originally at position 1. -/
theorem find_dynsym_duplicate_addr_cex :
    find_dynsym (sort_dynsymtab [⟨0, 8, 'P', "a"⟩, ⟨0, 8, 'P', "b"⟩]) 1 =
      some ⟨0, 8, 'P', "a"⟩ ∧
    (⟨0, 8, 'P', "a"⟩ : Sym) ≠ ⟨0, 8, 'P', "b"⟩ := by
  constructor
  · decide
  · decide

/-- C3 amended: when the relocation entries carry pairwise distinct
addresses, index-based lookup of slot idx after the address re-sort still
returns the symbol originally at relocation-table position idx. -/
theorem find_dynsym_preserves_slot (syms : List Sym) (idx : Nat)
    (hnd : (syms.map Sym.addr).Nodup) (hidx : idx < syms.length) :
    find_dynsym (sort_dynsymtab syms) idx = some (syms.getD idx symDefault) := by
  unfold find_dynsym
  rw [if_neg (by rw [sort_dynsymtab_sym_length]; omega)]
  rw [sort_dynsymtab_sym_names_of_nodup syms hnd]

/-- Witness for the amended C3 at a concrete unsorted two-entry table. -/
theorem find_dynsym_preserves_slot_witness :
    find_dynsym (sort_dynsymtab [⟨5, 1, 'P', "x"⟩, ⟨3, 1, 'P', "y"⟩]) 1 =
      some ⟨3, 1, 'P', "y"⟩ := by
  have h := find_dynsym_preserves_slot [⟨5, 1, 'P', "x"⟩, ⟨3, 1, 'P', "y"⟩] 1
    (by decide) (by decide)
  simpa using h

/-! ## C1: the loaded-table ordering invariant -/

/-- An ELF image whose symbol table ends in a run of three equal-address
function symbols (identical entries, so the unstable qsort order is
immaterial). -/
def c1Img : ElfStaticView :=
  ⟨true, none, some [.ok 2 1 1 true "f", .ok 2 1 1 true "f", .ok 2 1 1 true "f"]⟩

/-- C1 fails on the code: loading c1Img succeeds (result 0) but the
duplicate-removal loop's early break leaves two entries with the same address
in the primary sequence, violating the claimed strict ordering and
non-overlap invariant.  The comment in the C source says the pass removes
duplicated symbols, so this is a slip in the loop's boundary handling. -/
theorem load_symtab_trailing_duplicates_bug :
    (load_symtab id false false c1Img 0).1 = 0 ∧
    ((load_symtab id false false c1Img 0).2.sym.map Sym.addr = [2, 2]) ∧
    ¬tableInvariant (load_symtab id false false c1Img 0).2.sym := by
  have hloop : loadSymtabLoop id false 0
      [.ok 2 1 1 true "f", .ok 2 1 1 true "f", .ok 2 1 1 true "f"] [] =
      (false, [⟨2, 1, 'T', "f"⟩, ⟨2, 1, 'T', "f"⟩, ⟨2, 1, 'T', "f"⟩]) := by
    decide
  have hsort : sortByAddr [⟨2, 1, 'T', "f"⟩, ⟨2, 1, 'T', "f"⟩, ⟨2, 1, 'T', "f"⟩] =
      [⟨2, 1, 'T', "f"⟩, ⟨2, 1, 'T', "f"⟩, ⟨2, 1, 'T', "f"⟩] := by
    decide
  have hinner : dedupInner [⟨2, 1, 'T', "f"⟩, ⟨2, 1, 'T', "f"⟩, ⟨2, 1, 'T', "f"⟩] 0 =
      [⟨2, 1, 'T', "f"⟩, ⟨2, 1, 'T', "f"⟩] := by
    unfold dedupInner
    norm_num [symDefault]
  have houter : dedupLoop [⟨2, 1, 'T', "f"⟩, ⟨2, 1, 'T', "f"⟩, ⟨2, 1, 'T', "f"⟩] 0 =
      [⟨2, 1, 'T', "f"⟩, ⟨2, 1, 'T', "f"⟩] := by
    rw [dedupLoop]
    rw [dif_pos (by norm_num), hinner, dedupLoop, dif_neg (by norm_num)]
  have hfin : (load_symtab id false false c1Img 0).1 = 0 ∧
      (load_symtab id false false c1Img 0).2.sym =
        [⟨2, 1, 'T', "f"⟩, ⟨2, 1, 'T', "f"⟩] := by
    norm_num [load_symtab, c1Img, adjustOffset]
    rw [hloop]
    norm_num [hsort, houter]
    simp
  refine ⟨hfin.1, ?_, ?_⟩
  · rw [hfin.2]; decide
  · rw [hfin.2]
    norm_num [tableInvariant, List.chain'_cons]

/-! ## C9: half-open interval address search -/

def fooS : Sym := ⟨0x1000, 16, 'T', "foo"⟩
def barS : Sym := ⟨0x1020, 32, 'T', "bar"⟩
def demoTab : List Sym := [fooS, barS]

/-- Binary search cannot invent a hit: when no symbol's half-open interval
[addr, addr + size) holds the probe address, the search returns not-found,
whatever the window. -/
theorem bsearchGo_eq_none_of_no_hit (syms : List Sym) (addr : Nat)
    (h : ∀ s ∈ syms, ¬(s.addr ≤ addr ∧ addr < s.addr + s.size))
    (lo hi : Nat) : bsearchGo syms addr lo hi = none := by
  induction lo, hi using bsearchGo.induct syms addr with
  | case1 lo hi hlt mid s hdir ih =>
    rw [bsearchGo]
    simp only [dif_pos hlt]
    rw [if_pos hdir]
    exact ih
  | case2 lo hi hlt mid s hs1 hs2 =>
    exfalso
    by_cases hmid : (lo + hi) / 2 < syms.length
    · have hmem : s ∈ syms := by
        show syms.getD ((lo + hi) / 2) symDefault ∈ syms
        rw [List.getD_eq_getElem _ _ hmid]
        exact List.getElem_mem hmid
      exact h s hmem ⟨Nat.not_lt.mp hs1, hs2⟩
    · have hdef : s = symDefault := by
        show syms.getD ((lo + hi) / 2) symDefault = symDefault
        exact List.getD_eq_default _ _ (Nat.le_of_not_lt hmid)
      rw [hdef] at hs2
      simp [symDefault] at hs2
  | case3 lo hi hlt mid s hs1 hs2 ih =>
    rw [bsearchGo]
    simp only [dif_pos hlt]
    rw [if_neg hs1, if_neg hs2]
    exact ih
  | case4 lo hi hlt =>
    rw [bsearchGo]
    simp only [dif_neg hlt]

/-- C9: address range search treats each symbol as the half-open interval
[addr, addr + size): on the example table (foo at 0x1000 size 16, bar at
0x1020 size 32) resolving 0x1005 hits foo, the gap address 0x1018 misses, and
0x1030 hits bar; in general any probe address contained in no symbol of the
table, in particular one below all entries, above all entries or in a gap,
yields not-found. -/
theorem addrfind_halfopen_interval :
    (bsearchAddr demoTab 0x1005 = some fooS ∧
     bsearchAddr demoTab 0x1018 = none ∧
     bsearchAddr demoTab 0x1030 = some barS) ∧
    ∀ (syms : List Sym) (addr : Nat),
      (∀ s ∈ syms, ¬(s.addr ≤ addr ∧ addr < s.addr + s.size)) →
      bsearchAddr syms addr = none := by
  constructor
  · refine ⟨?_, ?_, ?_⟩ <;>
      simp [bsearchAddr, bsearchGo, demoTab, fooS, barS, symDefault]
  · intro syms addr h
    exact bsearchGo_eq_none_of_no_hit syms addr h 0 syms.length

/-- Witness for the quantified part of C9 at a concrete below-all-entries
probe address. -/
theorem addrfind_halfopen_interval_witness : bsearchAddr demoTab 0x800 = none :=
  addrfind_halfopen_interval.2 demoTab 0x800 (by decide)

/-! ## C8: exclusive-create cache writing -/

/-- C8: saving with an already-existing target cache file returns silently
with no error and nothing written, whatever the other open behaviour would
be; an open failure for any other reason is fatal to the calling
operation. -/
theorem save_symbol_file_exclusive_create :
    ∀ (st dt : Symtab) (offset : Nat) (b : Bool),
      save_symbol_file true b st dt offset = .skipped ∧
      save_symbol_file false true st dt offset = .fatal := by
  intro st dt offset b
  exact ⟨rfl, rfl⟩

/-! ## C6: kernel/user routing of address resolution -/

/-- C6: for a kernel address (per the kernel-address predicate) resolution
depends only on the process-wide kernel table, never on any user table, and
is not-found when the kernel table was never loaded; for a non-kernel address
the kernel table is never consulted (the result is the same whatever the
kernel table holds). -/
theorem find_symtabs_kernel_routing :
    ∀ (kbound kshift addr : Nat) (kt : Option Symtab) (u1 u2 : Symtabs),
      (is_kernel_address kbound addr = true →
        find_symtabs kbound kshift kt u1 addr = find_symtabs kbound kshift kt u2 addr ∧
        find_symtabs kbound kshift none u1 addr = none) ∧
      (is_kernel_address kbound addr = false →
        ∀ kt2 : Option Symtab,
          find_symtabs kbound kshift kt u1 addr = find_symtabs kbound kshift kt2 u1 addr) := by
  intro kbound kshift addr kt u1 u2
  constructor
  · intro hk
    constructor
    · simp [find_symtabs, hk]
    · simp [find_symtabs, hk]
  · intro hk kt2
    simp [find_symtabs, hk]

/-- Witness for C6: a concrete kernel boundary, one kernel and one user
address, and two user-table sets that differ. -/
theorem find_symtabs_kernel_routing_witness :
    (find_symtabs 0x1000 8 (some ⟨demoTab, demoTab, true⟩)
        ⟨⟨demoTab, [], true⟩, emptySymtab, []⟩ 0x2000 =
      find_symtabs 0x1000 8 (some ⟨demoTab, demoTab, true⟩)
        ⟨emptySymtab, emptySymtab, []⟩ 0x2000 ∧
     find_symtabs 0x1000 8 none ⟨⟨demoTab, [], true⟩, emptySymtab, []⟩ 0x2000 = none) ∧
    find_symtabs 0x1000 8 (some ⟨demoTab, demoTab, true⟩)
        ⟨⟨demoTab, [], true⟩, emptySymtab, []⟩ 0x500 =
      find_symtabs 0x1000 8 none ⟨⟨demoTab, [], true⟩, emptySymtab, []⟩ 0x500 :=
  ⟨(find_symtabs_kernel_routing 0x1000 8 0x2000 (some ⟨demoTab, demoTab, true⟩)
      ⟨⟨demoTab, [], true⟩, emptySymtab, []⟩ ⟨emptySymtab, emptySymtab, []⟩).1 (by decide),
   (find_symtabs_kernel_routing 0x1000 8 0x500 (some ⟨demoTab, demoTab, true⟩)
      ⟨⟨demoTab, [], true⟩, emptySymtab, []⟩ ⟨emptySymtab, emptySymtab, []⟩).2 (by decide) none⟩

/-! ## Binary search hit correctness, used for the lookup-order claim -/

/-- Soundness: whatever bsearch returns is a table entry whose half-open
interval holds the probe address. -/
theorem bsearchGo_some (syms : List Sym) (addr : Nat) (lo hi : Nat) (s : Sym)
    (h : bsearchGo syms addr lo hi = some s) :
    s ∈ syms ∧ s.addr ≤ addr ∧ addr < s.addr + s.size := by
  induction lo, hi using bsearchGo.induct syms addr with
  | case1 lo hi hlt mid sm hdir ih =>
    rw [bsearchGo] at h
    simp only [dif_pos hlt] at h
    rw [if_pos hdir] at h
    exact ih h
  | case2 lo hi hlt mid sm hs1 hs2 =>
    rw [bsearchGo] at h
    simp only [dif_pos hlt] at h
    rw [if_neg hs1, if_pos hs2] at h
    have hssm : sm = s := Option.some.inj h
    subst hssm
    by_cases hmid : (lo + hi) / 2 < syms.length
    · have hmem : sm ∈ syms := by
        show syms.getD ((lo + hi) / 2) symDefault ∈ syms
        rw [List.getD_eq_getElem _ _ hmid]
        exact List.getElem_mem hmid
      exact ⟨hmem, Nat.not_lt.mp hs1, hs2⟩
    · exfalso
      have hdef : sm = symDefault := by
        show syms.getD ((lo + hi) / 2) symDefault = symDefault
        exact List.getD_eq_default _ _ (Nat.le_of_not_lt hmid)
      rw [hdef] at hs2
      simp [symDefault] at hs2
  | case3 lo hi hlt mid sm hs1 hs2 ih =>
    rw [bsearchGo] at h
    simp only [dif_pos hlt] at h
    rw [if_neg hs1, if_neg hs2] at h
    exact ih h
  | case4 lo hi hlt =>
    rw [bsearchGo] at h
    simp only [dif_neg hlt] at h
    exact Option.noConfusion h

/-- Completeness: over a pairwise disjoint address-ordered table, a window
containing the index of a symbol whose interval holds the probe address makes
bsearch return a hit. -/
theorem bsearchGo_isSome (syms : List Sym) (addr : Nat)
    (hpw : syms.Pairwise disjointR) (lo hi : Nat) :
    ∀ j, lo ≤ j → j < hi → hi ≤ syms.length →
      (syms.getD j symDefault).addr ≤ addr →
      addr < (syms.getD j symDefault).addr + (syms.getD j symDefault).size →
      (bsearchGo syms addr lo hi).isSome := by
  have hget := List.pairwise_iff_getElem.mp hpw
  induction lo, hi using bsearchGo.induct syms addr with
  | case1 lo hi hlt mid sm hdir ih =>
    intro j hj1 hj2 hhi hc1 hc2
    have hmlt : (lo + hi) / 2 < hi := by omega
    have hjm : j < (lo + hi) / 2 := by
      by_contra hge
      have hjlen : j < syms.length := by omega
      have hmlen : (lo + hi) / 2 < syms.length := by omega
      have hdir2 : addr < (syms.getD ((lo + hi) / 2) symDefault).addr := hdir
      rw [List.getD_eq_getElem _ _ hmlen] at hdir2
      rw [List.getD_eq_getElem _ _ hjlen] at hc1
      rcases Nat.lt_or_ge ((lo + hi) / 2) j with hlt2 | hge2
      · have hr := hget _ _ hmlen hjlen hlt2
        unfold disjointR at hr
        omega
      · have hj_eq : j = (lo + hi) / 2 := by omega
        subst hj_eq
        omega
    rw [bsearchGo]
    simp only [dif_pos hlt]
    rw [if_pos hdir]
    exact ih j hj1 hjm (by omega) hc1 hc2
  | case2 lo hi hlt mid sm hs1 hs2 =>
    intro j hj1 hj2 hhi hc1 hc2
    rw [bsearchGo]
    simp only [dif_pos hlt]
    rw [if_neg hs1, if_pos hs2]
    rfl
  | case3 lo hi hlt mid sm hs1 hs2 ih =>
    intro j hj1 hj2 hhi hc1 hc2
    have hmlt : (lo + hi) / 2 < hi := by omega
    have hmlen : (lo + hi) / 2 < syms.length := by omega
    have hjlen : j < syms.length := by omega
    have hjm : (lo + hi) / 2 < j := by
      by_contra hge
      have hs1' : (syms.getD ((lo + hi) / 2) symDefault).addr ≤ addr := Nat.not_lt.mp hs1
      have hs2' : ¬addr < (syms.getD ((lo + hi) / 2) symDefault).addr +
          (syms.getD ((lo + hi) / 2) symDefault).size := hs2
      rw [List.getD_eq_getElem _ _ hmlen] at hs1' hs2'
      rw [List.getD_eq_getElem _ _ hjlen] at hc1 hc2
      rcases Nat.lt_or_ge j ((lo + hi) / 2) with hlt2 | hge2
      · have hr := hget _ _ hjlen hmlen hlt2
        unfold disjointR at hr
        omega
      · have hj_eq : j = (lo + hi) / 2 := by omega
        subst hj_eq
        omega
    rw [bsearchGo]
    simp only [dif_pos hlt]
    rw [if_neg hs1, if_neg hs2]
    exact ih j (by omega) hj2 hhi hc1 hc2
  | case4 lo hi hlt =>
    intro j hj1 hj2 hhi hc1 hc2
    omega

/-- Over a pairwise disjoint table, bsearch finds exactly the symbol whose
interval holds the probe address. -/
theorem bsearchAddr_hit (syms : List Sym) (addr : Nat)
    (hpw : syms.Pairwise disjointR) (s : Sym) (hmem : s ∈ syms)
    (hc1 : s.addr ≤ addr) (hc2 : addr < s.addr + s.size) :
    bsearchAddr syms addr = some s := by
  obtain ⟨k, hk, hks⟩ := List.getElem_of_mem hmem
  have hsome := bsearchGo_isSome syms addr hpw 0 syms.length k (Nat.zero_le k) hk
    (Nat.le_refl _)
    (by rw [List.getD_eq_getElem _ _ hk, hks]; exact hc1)
    (by rw [List.getD_eq_getElem _ _ hk, hks]; exact hc2)
  obtain ⟨t, ht⟩ := Option.isSome_iff_exists.mp hsome
  obtain ⟨htm, htc1, htc2⟩ := bsearchGo_some syms addr 0 syms.length t ht
  obtain ⟨i, hi, hit⟩ := List.getElem_of_mem htm
  have hts : t = s := by
    have hget := List.pairwise_iff_getElem.mp hpw
    rcases Nat.lt_trichotomy i k with hik | hik | hik
    · exfalso
      have hr := hget _ _ hi hk hik
      unfold disjointR at hr
      rw [hit, hks] at hr
      omega
    · subst hik
      exact hit.symm.trans hks
    · exfalso
      have hr := hget _ _ hk hi hik
      unfold disjointR at hr
      rw [hit, hks] at hr
      omega
  unfold bsearchAddr
  rw [ht, hts]

/-! ## C5: static table is consulted before the memory map -/

/-- C5: a non-kernel address contained in a symbol of the main static table
(satisfying its no-overlap invariant) resolves to that static-table symbol,
whatever the dynamic table holds and whatever mapped modules cover the same
numeric address: the static table is consulted first. -/
theorem find_symtabs_static_first (kbound kshift : Nat) (kt : Option Symtab)
    (stabs : Symtabs) (addr : Nat) (s : Sym)
    (hk : is_kernel_address kbound addr = false)
    (hinv : stabs.symtab.sym.Chain' disjointR)
    (hmem : s ∈ stabs.symtab.sym)
    (hc1 : s.addr ≤ addr) (hc2 : addr < s.addr + s.size) :
    find_symtabs kbound kshift kt stabs addr = some s := by
  have hpw : stabs.symtab.sym.Pairwise disjointR :=
    (List.chain'_iff_pairwise).mp hinv
  have hhit := bsearchAddr_hit stabs.symtab.sym addr hpw s hmem hc1 hc2
  simp [find_symtabs, hk, hhit]

/-- Witness for C5: the address 0x1005 lies both in foo of the static table
and in a mapped module whose own table has a different symbol at the same
address, and resolution still returns foo. -/
theorem find_symtabs_static_first_witness :
    find_symtabs 0x100000 8 none
      ⟨⟨demoTab, [], true⟩, emptySymtab,
       [⟨0x1000, 0x2000, ⟨[⟨0x1000, 0x100, 'T', "mod"⟩], [], true⟩⟩]⟩ 0x1005 =
      some fooS :=
  find_symtabs_static_first 0x100000 8 none
    ⟨⟨demoTab, [], true⟩, emptySymtab,
     [⟨0x1000, 0x2000, ⟨[⟨0x1000, 0x100, 'T', "mod"⟩], [], true⟩⟩]⟩ 0x1005 fooS
    (by decide)
    (by simp [demoTab, List.chain'_cons, disjointR, fooS, barS])
    (by simp [demoTab]) (by norm_num [fooS]) (by norm_num [fooS])

/-! ## C4: behaviour of the loaders on malformed input -/

theorem loadSymtabLoop_bad_append (dem : String → String) (fd : Bool) (off : Nat)
    (pre post : List ElfSymEntry) :
    ∀ acc, (∀ e ∈ pre, e ≠ .bad) →
      loadSymtabLoop dem fd off (pre ++ .bad :: post) acc =
        (true, (loadSymtabLoop dem fd off pre acc).2) := by
  induction pre with
  | nil =>
    intro acc _
    simp [loadSymtabLoop]
  | cons e es ih =>
    intro acc hpre
    cases e with
    | bad => exact absurd rfl (hpre .bad (List.mem_cons_self _ _))
    | ok v sz bind fn nm =>
      have hpre2 : ∀ x ∈ es, x ≠ .bad := fun x hx => hpre x (List.mem_cons_of_mem _ hx)
      by_cases h0 : sz = 0
      · simp only [List.cons_append, loadSymtabLoop, if_pos h0]
        exact ih acc hpre2
      · by_cases h1 : ¬fn
        · simp only [List.cons_append, loadSymtabLoop, if_neg h0, if_pos h1]
          exact ih acc hpre2
        · simp only [List.cons_append, loadSymtabLoop, if_neg h0, if_neg h1]
          exact ih _ hpre2

theorem loadDynLoop_bad_append (dem : String → String) (fd fa : Bool)
    (off plt ent : Nat) (l1 l2 : List RelEntry) :
    ∀ idx acc, loadDynLoop dem fd fa off plt ent (l1 ++ .bad :: l2) idx acc = none := by
  induction l1 with
  | nil =>
    intro idx acc
    rfl
  | cons e es ih =>
    intro idx acc
    cases e with
    | bad => rfl
    | ok v fn nm =>
      simp only [List.cons_append, loadDynLoop]
      exact ih _ _

/-- C4 counterexample to the claim as stated: a corrupt symbol entry
mid-parse makes the static loader return failure, but the table keeps the
symbol parsed before the error instead of being empty. -/
theorem load_symtab_partial_on_error_cex :
    (load_symtab id false false ⟨true, none, some [.ok 16 4 1 true "g", .bad]⟩ 0).1 = -1 ∧
    (load_symtab id false false ⟨true, none, some [.ok 16 4 1 true "g", .bad]⟩ 0).2.sym =
      [⟨16, 4, 'T', "g"⟩] := by
  constructor <;> decide

/-- C4 amended: on a malformed entry the static loader aborts with a failure
result and leaves exactly the symbols accepted before the error in its table
(partial, not sorted or indexed), while the dynamic loader aborts with a
failure result and an emptied table; each loader touches only its own
table. -/
theorem load_error_partial_static_empty_dynamic
    (dem : String → String) (fd fa : Bool) (vaddr : Option Nat)
    (pre post : List ElfSymEntry) (offset : Nat)
    (hpre : ∀ e ∈ pre, e ≠ .bad)
    (dimg : ElfDynView) (rpre rpost : List RelEntry) (doff : Nat)
    (hhdr : dimg.header_ok = true) (hds : dimg.has_dynsym = true)
    (hplt : dimg.plt_addr ≠ 0)
    (hrels : dimg.rel_entries = some (rpre ++ .bad :: rpost)) :
    load_symtab dem fd fa ⟨true, vaddr, some (pre ++ .bad :: post)⟩ offset =
      (-1, ⟨(loadSymtabLoop dem fd
              (adjustOffset fa offset vaddr) pre []).2, [], false⟩) ∧
    load_dynsymtab dem fd fa dimg doff = (-1, emptySymtab) := by
  constructor
  · simp only [load_symtab]
    rw [loadSymtabLoop_bad_append dem fd (adjustOffset fa offset vaddr) pre post [] hpre]
    simp
  · simp only [load_dynsymtab, hhdr, hds, hrels]
    rw [loadDynLoop_bad_append]
    simp [hplt]

/-- Witness for the amended C4 at one concrete static image and one concrete
dynamic image, each with a corrupt entry after one good record. -/
theorem load_error_partial_static_empty_dynamic_witness :
    load_symtab id false false ⟨true, none, some [.ok 16 4 1 true "g", .bad]⟩ 0 =
      (-1, ⟨(loadSymtabLoop id false (adjustOffset false 0 none)
              [.ok 16 4 1 true "g"] []).2, [], false⟩) ∧
    load_dynsymtab id false false ⟨true, none, true, 0x100, 16, some [.bad]⟩ 0 =
      (-1, emptySymtab) :=
  load_error_partial_static_empty_dynamic id false false none
    [.ok 16 4 1 true "g"] [] 0 (by decide)
    ⟨true, none, true, 0x100, 16, some [.bad]⟩ [] [] 0 rfl rfl (by decide) rfl

/-! ## C7: duplicate collapsing and the SyS_/sys_ rename in the cache reader -/

theorem updateLast_length (l : List Sym) (f : Sym → Sym) :
    (updateLast l f).length = l.length := by
  induction l with
  | nil => rfl
  | cons y ys ih =>
    cases ys with
    | nil => rfl
    | cons z zs =>
      show (y :: updateLast (z :: zs) f).length = (y :: z :: zs).length
      simpa using ih

theorem updateLast_append_singleton (l : List Sym) (x : Sym) (f : Sym → Sym) :
    updateLast (l ++ [x]) f = l ++ [f x] := by
  induction l with
  | nil => rfl
  | cons y ys ih =>
    cases ys with
    | nil => rfl
    | cons z zs =>
      show y :: updateLast ((z :: zs) ++ [x]) f = y :: ((z :: zs) ++ [f x])
      exact congrArg _ ih

theorem appendSym_formula (l : List Sym) (new : Sym) :
    appendSym l new =
      (updateLast l fun p => { p with size := u64sub new.addr p.addr % M32 }) ++ [new] := by
  cases l <;> rfl

theorem appendSym_length (l : List Sym) (new : Sym) :
    (appendSym l new).length = l.length + 1 := by
  rw [appendSym_formula, List.length_append, updateLast_length]
  rfl

/-- Which table the type letter routes a line to. -/
def tableOf (t : Char) (s : LoadState) : List Sym :=
  if t = ST_PLT then s.dyn else s.stat

/-- C7 counterexample to the claim as stated: two consecutive cache lines
with an equal (address, type) pair whose type letter is outside the allow-set
(the unknown marker, as produced for symbols with an unrecognized ELF
binding) store no symbol at all, not exactly one. -/
theorem cache_dup_unrecognized_type_cex :
    (load_symbol_file id [⟨5, '?', "a"⟩, ⟨5, '?', "b"⟩] 0).symtab.sym = [] ∧
    (load_symbol_file id [⟨5, '?', "a"⟩, ⟨5, '?', "b"⟩] 0).dsymtab.sym = [] := by
  constructor <;> rfl

/-- C7 amended: for a recognized type letter, two consecutive lines with the
same (address, type) pair store exactly one symbol in the table that letter
routes to, the other table is untouched, and the stored symbol's name follows
the SyS_/sys_ rule: the duplicate overwrites the stored four-character
SyS_ head with sys_ when the remainders agree, and otherwise changes
nothing. -/
theorem cache_dup_collapse_and_rename
    (dem : String → String) (off : Nat) (s : LoadState) (a : Nat) (t : Char)
    (n1 n2 : String)
    (ht : allowed t = true)
    (hprev : ¬(a = s.prev_addr ∧ t = s.prev_type)) :
    (tableOf t (processLine dem off (processLine dem off s ⟨a, t, n1⟩) ⟨a, t, n2⟩)).length =
      (tableOf t s).length + 1 ∧
    (tableOf t (processLine dem off (processLine dem off s ⟨a, t, n1⟩) ⟨a, t, n2⟩)).getLast? =
      some ⟨(a + off) % M64, 0, t, sysRename (dem n1) n2⟩ ∧
    (if t = ST_PLT
      then (processLine dem off (processLine dem off s ⟨a, t, n1⟩) ⟨a, t, n2⟩).stat = s.stat
      else (processLine dem off (processLine dem off s ⟨a, t, n1⟩) ⟨a, t, n2⟩).dyn = s.dyn) := by
  have hall : ¬¬allowed (⟨a, t, n1⟩ : SLine).type := by simp [ht]
  by_cases hp : t = ST_PLT
  · have hs1 : processLine dem off s ⟨a, t, n1⟩ =
        { stat := s.stat, dyn := appendSym s.dyn ⟨(a + off) % M64, 0, t, dem n1⟩,
          curDyn := true, prev_addr := a, prev_type := t } := by
      unfold processLine
      rw [if_neg hprev, if_neg hall, if_pos hp]
    rw [hs1]
    unfold processLine
    rw [if_pos ⟨rfl, rfl⟩]
    simp only [tableOf, if_pos hp]
    rw [appendSym_formula, updateLast_append_singleton]
    refine ⟨?_, ?_, ?_⟩
    · simp [updateLast_length]
    · simp
    · simp [if_pos hp]
  · have hs1 : processLine dem off s ⟨a, t, n1⟩ =
        { stat := appendSym s.stat ⟨(a + off) % M64, 0, t, dem n1⟩, dyn := s.dyn,
          curDyn := false, prev_addr := a, prev_type := t } := by
      unfold processLine
      rw [if_neg hprev, if_neg hall, if_neg hp]
    rw [hs1]
    unfold processLine
    rw [if_pos ⟨rfl, rfl⟩]
    simp only [tableOf, if_neg hp]
    rw [appendSym_formula, updateLast_append_singleton]
    refine ⟨?_, ?_, ?_⟩
    · simp [updateLast_length]
    · simp
    · simp [if_neg hp]

/-- Witness for the amended C7: a SyS_read line followed by a duplicate
sys_read line stores one symbol whose stored name has been renamed to
sys_read. -/
theorem cache_dup_collapse_and_rename_witness :
    (tableOf 'T' (processLine id 0 (processLine id 0 initState ⟨7, 'T', "SyS_read"⟩)
        ⟨7, 'T', "sys_read"⟩)).length = 1 ∧
    (tableOf 'T' (processLine id 0 (processLine id 0 initState ⟨7, 'T', "SyS_read"⟩)
        ⟨7, 'T', "sys_read"⟩)).getLast? = some ⟨7, 0, 'T', "sys_read"⟩ := by
  have h := cache_dup_collapse_and_rename id 0 initState 7 'T' "SyS_read" "sys_read"
    (by decide) (by decide)
  have hname : sysRename (id "SyS_read") "sys_read" = "sys_read" := by decide
  have haddr : (7 + 0) % M64 = 7 := by decide
  refine ⟨?_, ?_⟩
  · have h1 := h.1
    simpa [initState, tableOf] using h1
  · have h2 := h.2.1
    rw [hname, haddr] at h2
    exact h2

/-! ## C2: save/load round trip -/

theorem u64sub_roundtrip (a o : Nat) (h : a < M64) : (u64sub a o + o) % M64 = a := by
  unfold u64sub M64 at *
  omega

theorem u64sub_inj (a b o : Nat) (ha : a < M64) (hb : b < M64)
    (h : u64sub a o = u64sub b o) : a = b := by
  have h1 := u64sub_roundtrip a o ha
  have h2 := u64sub_roundtrip b o hb
  rw [← h1, ← h2, h]

/-- The symbol a cache line is stored as by the reader before size
back-fill. -/
def lineSym (dem : String → String) (off : Nat) (ln : SLine) : Sym :=
  ⟨(ln.addr + off) % M64, 0, ln.type, dem ln.name⟩

def linePair (ln : SLine) : Nat × Char := (ln.addr, ln.type)

/-- A run of cache lines that the reader accepts one by one: every line has
an allowed type letter and differs from the previously accepted
(address, type) pair. -/
def okRun : Nat × Char → List SLine → Prop
  | _, [] => True
  | p, l :: ls => (l.addr, l.type) ≠ p ∧ allowed l.type = true ∧ okRun (l.addr, l.type) ls

theorem okRun_of_nodup (p : Nat × Char) (lines : List SLine)
    (ha : ∀ l ∈ lines, allowed l.type = true)
    (hnd : (p :: lines.map linePair).Nodup) : okRun p lines := by
  induction lines generalizing p with
  | nil => trivial
  | cons l ls ih =>
    refine ⟨?_, ha l (List.mem_cons_self _ _), ?_⟩
    · intro he
      apply (List.nodup_cons.mp hnd).1
      rw [← he]
      simp [linePair]
    · exact ih (l.addr, l.type) (fun x hx => ha x (List.mem_cons_of_mem _ hx))
        (List.nodup_cons.mp hnd).2

theorem updateLast_map_tri (l : List Sym) (f : Sym → Sym)
    (h : ∀ x, tri (f x) = tri x) : (updateLast l f).map tri = l.map tri := by
  induction l with
  | nil => rfl
  | cons y ys ih =>
    cases ys with
    | nil =>
      show [tri (f y)] = [tri y]
      rw [h y]
    | cons z zs =>
      show tri y :: (updateLast (z :: zs) f).map tri = tri y :: (z :: zs).map tri
      exact congrArg _ ih

theorem appendSym_map_tri (l : List Sym) (new : Sym) :
    (appendSym l new).map tri = l.map tri ++ [tri new] := by
  rw [appendSym_formula, List.map_append,
    updateLast_map_tri l (fun p => { p with size := u64sub new.addr p.addr % M32 })
      (fun x => rfl)]
  rfl

/-- The read loop on a fully accepted run: each line is appended, in file
order, to the table its type letter routes to; size back-fill never changes a
triple. -/
theorem processLines_all_accepted (dem : String → String) (off : Nat)
    (lines : List SLine) :
    ∀ s : LoadState, okRun (s.prev_addr, s.prev_type) lines →
      (processLines dem off s lines).stat.map tri =
        s.stat.map tri ++
          ((lines.filter fun l => !(l.type == ST_PLT)).map fun l => tri (lineSym dem off l)) ∧
      (processLines dem off s lines).dyn.map tri =
        s.dyn.map tri ++
          ((lines.filter fun l => l.type == ST_PLT).map fun l => tri (lineSym dem off l)) := by
  induction lines with
  | nil =>
    intro s _
    simp [processLines]
  | cons l ls ih =>
    intro s hok
    obtain ⟨hne, hal, hrest⟩ := hok
    have hdup : ¬(l.addr = s.prev_addr ∧ l.type = s.prev_type) := by
      rintro ⟨h1, h2⟩
      exact hne (by rw [h1, h2])
    have hcons : processLines dem off s (l :: ls) =
        processLines dem off (processLine dem off s l) ls := rfl
    by_cases hp : l.type = ST_PLT
    · have hstep : processLine dem off s l =
          { stat := s.stat, dyn := appendSym s.dyn (lineSym dem off l),
            curDyn := true, prev_addr := l.addr, prev_type := l.type } := by
        unfold processLine
        rw [if_neg hdup, if_neg (by simp [hal]), if_pos hp]
        rfl
      have ihs := ih (processLine dem off s l) (by rw [hstep]; exact hrest)
      rw [hcons]
      refine ⟨?_, ?_⟩
      · rw [ihs.1, hstep]
        simp [List.filter_cons, hp]
      · rw [ihs.2, hstep]
        simp [List.filter_cons, hp, appendSym_map_tri]
    · have hstep : processLine dem off s l =
          { stat := appendSym s.stat (lineSym dem off l), dyn := s.dyn,
            curDyn := false, prev_addr := l.addr, prev_type := l.type } := by
        unfold processLine
        rw [if_neg hdup, if_neg (by simp [hal]), if_neg hp]
        rfl
      have ihs := ih (processLine dem off s l) (by rw [hstep]; exact hrest)
      rw [hcons]
      refine ⟨?_, ?_⟩
      · rw [ihs.1, hstep]
        simp [List.filter_cons, hp, appendSym_map_tri]
      · rw [ihs.2, hstep]
        simp [List.filter_cons, hp]

/-- C2 counterexample to the claim as stated: a loaded static table holding a
symbol of unknown type (the ELF loader produces the unknown marker for any
binding other than local, global or weak) loses that symbol on the round
trip, because the reader's allow-set drops its type letter. -/
theorem save_load_drops_unknown_type_cex :
    (load_symbol_file id
        (save_lines ⟨[⟨0x100, 4, '?', "f"⟩], [⟨0x100, 4, '?', "f"⟩], true⟩ emptySymtab 0)
        0).symtab.sym.map tri = [] ∧
    ([⟨0x100, 4, '?', "f"⟩] : List Sym).map tri = [(0x100, '?', "f")] := by
  constructor <;> rfl

/-- On a fully accepted run starting from the initial state, with all
dynamic-typed lines first and the static-typed lines second (the save file
layout), the reader reconstructs each table as its block of lines in file
order. -/
theorem processLines_routed (dem : String → String) (o : Nat) (LD LS : List SLine)
    (hLD : ∀ l ∈ LD, l.type = 'P')
    (hLS : ∀ l ∈ LS, allowed l.type = true ∧ l.type ≠ 'P')
    (hnd : (((M64 - 1 : Nat), ('X' : Char)) :: (LD ++ LS).map linePair).Nodup) :
    (processLines dem o initState (LD ++ LS)).stat.map tri =
      LS.map (fun l => tri (lineSym dem o l)) ∧
    (processLines dem o initState (LD ++ LS)).dyn.map tri =
      LD.map (fun l => tri (lineSym dem o l)) := by
  have hallow : ∀ l ∈ LD ++ LS, allowed l.type = true := by
    intro l hl
    rcases List.mem_append.mp hl with h | h
    · rw [hLD l h]
      decide
    · exact (hLS l h).1
  have hok : okRun (initState.prev_addr, initState.prev_type) (LD ++ LS) :=
    okRun_of_nodup _ _ hallow hnd
  have h := processLines_all_accepted dem o (LD ++ LS) initState hok
  have hfilterS : (LD ++ LS).filter (fun l => !(l.type == ST_PLT)) = LS := by
    rw [List.filter_append]
    rw [List.filter_eq_nil_iff.mpr (fun a ha => by simp [hLD a ha, ST_PLT])]
    rw [List.filter_eq_self.mpr (fun a ha => by simp [ST_PLT, (hLS a ha).2])]
    rfl
  have hfilterD : (LD ++ LS).filter (fun l => l.type == ST_PLT) = LD := by
    rw [List.filter_append]
    rw [List.filter_eq_self.mpr (fun a ha => by simp [hLD a ha, ST_PLT])]
    rw [List.filter_eq_nil_iff.mpr (fun a ha => by simp [ST_PLT, (hLS a ha).2])]
    simp
  constructor
  · rw [h.1, hfilterS]
    simp [initState]
  · rw [h.2, hfilterD]
    simp [initState]

/-- Triples survive the write-then-parse cycle of one block of symbols when
the demangler is the identity and the addresses fit in 64 bits. -/
theorem map_tri_lineSym_written (dem : String → String) (o : Nat)
    (hdem : ∀ n, dem n = n) (xs : List Sym) (hb : ∀ x ∈ xs, x.addr < M64) :
    (xs.map (wrLine o)).map (fun l => tri (lineSym dem o l)) = xs.map tri := by
  rw [List.map_map]
  apply List.map_congr_left
  intro x hx
  show tri (lineSym dem o ⟨u64sub x.addr o, x.type, x.name⟩) = tri x
  unfold lineSym tri
  simp [u64sub_roundtrip x.addr o (hb x hx), hdem]

theorem map_addr_written (o : Nat) (xs : List Sym) :
    (xs.map (wrLine o)).map SLine.addr =
      (xs.map Sym.addr).map (fun a => u64sub a o) := by
  simp [List.map_map, wrLine]

/-- The (address, type, name) triples the sentinel line reconstructs to. -/
def sentTris (name0 : String) (last? : Option Sym) : List (Nat × Char × String) :=
  match last? with
  | some l => [(l.addr + l.size, l.type, name0)]
  | none => []

/-- The pre-offset address carried by the sentinel line. -/
def sentAddrs (last? : Option Sym) : List Nat :=
  match last? with
  | some l => [l.addr + l.size]
  | none => []

theorem mem_sentLines (n0 : String) (o : Nat) (l? : Option Sym) (x : SLine)
    (hx : x ∈ sentLines n0 o l?) :
    ∃ l, l? = some l ∧ x = ⟨u64sub (l.addr + l.size) o, l.type, n0⟩ := by
  cases l? with
  | none => cases hx
  | some l => exact ⟨l, rfl, by simpa [sentLines] using hx⟩

theorem sentLines_map_tri (dem : String → String) (n0 : String) (o : Nat)
    (l? : Option Sym) (hdem : ∀ n, dem n = n)
    (hb : ∀ l, l? = some l → l.addr + l.size < M64) :
    (sentLines n0 o l?).map (fun l => tri (lineSym dem o l)) = sentTris n0 l? := by
  cases l? with
  | none => rfl
  | some l =>
    simp [sentLines, sentTris, lineSym, tri, u64sub_roundtrip _ _ (hb l rfl), hdem]

theorem sentLines_map_addr (n0 : String) (o : Nat) (l? : Option Sym) :
    (sentLines n0 o l?).map SLine.addr = (sentAddrs l?).map (fun a => u64sub a o) := by
  cases l? <;> rfl

theorem sentTris_map_fst (n0 : String) (l? : Option Sym) :
    (sentTris n0 l?).map (fun t => t.1) = sentAddrs l? := by
  cases l? <;> rfl

theorem map_tri_fst (l : List Sym) :
    (l.map tri).map (fun t => t.1) = l.map Sym.addr := by
  rw [List.map_map]
  rfl

theorem mem_of_getLast?_some {l : List Sym} {x : Sym} (h : l.getLast? = some x) :
    x ∈ l := by
  have hx : x ∈ l.getLast? := by rw [h]; rfl
  obtain ⟨hne, hg⟩ := List.mem_getLast?_eq_getLast hx
  rw [hg]
  exact List.getLast_mem hne

/-- C2 amended: writing a cache file from a loaded table set and re-reading
it at the same load offset reproduces every real (address, type, name)
triple in both tables, plus one synthetic sentinel entry appended per
nonempty table, provided: the demangler leaves stored names unchanged (the
reader re-demangles them), every static symbol's type letter is in the
reader's allow-set and distinct from the PLT letter, the static table is
strictly address-sorted and its last symbol has nonzero size, every dynamic
entry has the PLT type with pairwise distinct addresses also distinct from
the dynamic sentinel address (the reader collapses consecutive equal
(address, type) lines and the slot re-resolution needs unique addresses),
and all addresses fit in 64 bits. -/
theorem save_load_roundtrip
    (dem : String → String) (o : Nat) (st dt : Symtab)
    (hdem : ∀ n, dem n = n)
    (hsort : st.sym.Chain' fun x y => x.addr < y.addr)
    (hstT : ∀ x ∈ st.sym, x.type = 'T' ∨ x.type = 't' ∨ x.type = 'w' ∨ x.type = 'K')
    (hstB : ∀ x ∈ st.sym, x.addr < M64)
    (hstL : ∀ l, st.sym.getLast? = some l → 0 < l.size ∧ l.addr + l.size < M64)
    (hdtN : ∀ x ∈ dt.sym_names, x.type = 'P')
    (hdtS : ∀ x ∈ dt.sym, x.type = 'P')
    (hdtB : ∀ x ∈ dt.sym_names, x.addr < M64)
    (hdtL : ∀ l, dt.sym.getLast? = some l → l.addr + l.size < M64)
    (hnd : (dt.sym_names.map Sym.addr ++ sentAddrs dt.sym.getLast?).Nodup) :
    (load_symbol_file dem (save_lines st dt o) o).symtab.sym.map tri =
      st.sym.map tri ++ sentTris "__sym_end" st.sym.getLast? ∧
    (load_symbol_file dem (save_lines st dt o) o).dsymtab.sym_names.map tri =
      dt.sym_names.map tri ++ sentTris "__dynsym_end" dt.sym.getLast? := by
  set LD : List SLine :=
    dt.sym_names.map (wrLine o) ++ sentLines "__dynsym_end" o dt.sym.getLast? with hLDdef
  set LS : List SLine :=
    st.sym.map (wrLine o) ++ sentLines "__sym_end" o st.sym.getLast? with hLSdef
  have hL : save_lines st dt o = LD ++ LS := by
    rw [hLDdef, hLSdef, save_lines, List.append_assoc, List.append_assoc]
  have hbA : ∀ a ∈ dt.sym_names.map Sym.addr ++ sentAddrs dt.sym.getLast?, a < M64 := by
    intro a ha
    rcases List.mem_append.mp ha with h | h
    · obtain ⟨x, hx, rfl⟩ := List.mem_map.mp h
      exact hdtB x hx
    · cases hDL : dt.sym.getLast? with
      | none => rw [hDL] at h; cases h
      | some l =>
        rw [hDL] at h
        simp only [sentAddrs, List.mem_singleton] at h
        rw [h]
        exact hdtL l hDL
  have hbB : ∀ a ∈ st.sym.map Sym.addr ++ sentAddrs st.sym.getLast?, a < M64 := by
    intro a ha
    rcases List.mem_append.mp ha with h | h
    · obtain ⟨x, hx, rfl⟩ := List.mem_map.mp h
      exact hstB x hx
    · cases hSL : st.sym.getLast? with
      | none => rw [hSL] at h; cases h
      | some l =>
        rw [hSL] at h
        simp only [sentAddrs, List.mem_singleton] at h
        rw [h]
        exact (hstL l hSL).2
  have hLDP : ∀ l ∈ LD, l.type = 'P' := by
    intro l hl
    rw [hLDdef] at hl
    rcases List.mem_append.mp hl with h | h
    · obtain ⟨x, hx, rfl⟩ := List.mem_map.mp h
      exact hdtN x hx
    · obtain ⟨y, hy, rfl⟩ := mem_sentLines _ _ _ _ h
      exact hdtS y (mem_of_getLast?_some hy)
  have hLSP : ∀ l ∈ LS, allowed l.type = true ∧ l.type ≠ 'P' := by
    intro l hl
    rw [hLSdef] at hl
    rcases List.mem_append.mp hl with h | h
    · obtain ⟨x, hx, rfl⟩ := List.mem_map.mp h
      show allowed x.type = true ∧ x.type ≠ 'P'
      rcases hstT x hx with h1 | h1 | h1 | h1 <;> rw [h1] <;> exact ⟨by decide, by decide⟩
    · obtain ⟨y, hy, rfl⟩ := mem_sentLines _ _ _ _ h
      show allowed y.type = true ∧ y.type ≠ 'P'
      rcases hstT y (mem_of_getLast?_some hy) with h1 | h1 | h1 | h1 <;> rw [h1] <;>
        exact ⟨by decide, by decide⟩
  have hLDaddr : LD.map SLine.addr =
      (dt.sym_names.map Sym.addr ++ sentAddrs dt.sym.getLast?).map (fun a => u64sub a o) := by
    rw [hLDdef, List.map_append, map_addr_written, sentLines_map_addr, List.map_append]
  have hLSaddr : LS.map SLine.addr =
      (st.sym.map Sym.addr ++ sentAddrs st.sym.getLast?).map (fun a => u64sub a o) := by
    rw [hLSdef, List.map_append, map_addr_written, sentLines_map_addr, List.map_append]
  have hchainB : List.Chain' (· < ·) (st.sym.map Sym.addr ++ sentAddrs st.sym.getLast?) := by
    rw [List.chain'_append]
    refine ⟨(List.chain'_map Sym.addr).mpr hsort, ?_, ?_⟩
    · cases st.sym.getLast? <;> simp [sentAddrs]
    · intro x hx y hy
      cases hSL : st.sym.getLast? with
      | none => rw [hSL] at hy; cases hy
      | some l =>
        rw [hSL] at hy
        simp only [sentAddrs, List.head?_cons, Option.mem_def, Option.some.injEq] at hy
        rw [List.getLast?_map, hSL] at hx
        simp only [Option.map_some', Option.mem_def, Option.some.injEq] at hx
        rw [← hx, ← hy]
        have := (hstL l hSL).1
        omega
  have hndB : (st.sym.map Sym.addr ++ sentAddrs st.sym.getLast?).Nodup :=
    (List.chain'_iff_pairwise.mp hchainB).imp Nat.ne_of_lt
  have hndLD : (LD.map linePair).Nodup := by
    apply List.Nodup.of_map Prod.fst
    have hmm : (LD.map linePair).map Prod.fst = LD.map SLine.addr := by
      rw [List.map_map]
      rfl
    rw [hmm, hLDaddr]
    exact hnd.map_on fun x hx y hy hxy => u64sub_inj x y o (hbA x hx) (hbA y hy) hxy
  have hndLS : (LS.map linePair).Nodup := by
    apply List.Nodup.of_map Prod.fst
    have hmm : (LS.map linePair).map Prod.fst = LS.map SLine.addr := by
      rw [List.map_map]
      rfl
    rw [hmm, hLSaddr]
    exact hndB.map_on fun x hx y hy hxy => u64sub_inj x y o (hbB x hx) (hbB y hy) hxy
  have hdisj : (LD.map linePair).Disjoint (LS.map linePair) := by
    intro p hp hq
    obtain ⟨x, hx, hxp⟩ := List.mem_map.mp hp
    obtain ⟨y, hy, hyp⟩ := List.mem_map.mp hq
    have h1 : x.type = 'P' := hLDP x hx
    have h2 : y.type ≠ 'P' := (hLSP y hy).2
    have heq : x.type = y.type := congrArg Prod.snd (hxp.trans hyp.symm)
    exact h2 (heq ▸ h1)
  have hfullnd : (((M64 - 1 : Nat), ('X' : Char)) :: (LD ++ LS).map linePair).Nodup := by
    rw [List.map_append, List.nodup_cons, List.nodup_append]
    refine ⟨?_, hndLD, hndLS, hdisj⟩
    intro hmem
    rcases List.mem_append.mp hmem with h | h
    · obtain ⟨x, hx, hxe⟩ := List.mem_map.mp h
      have hX : x.type = 'X' := congrArg Prod.snd hxe
      rw [hLDP x hx] at hX
      exact absurd hX (by decide)
    · obtain ⟨x, hx, hxe⟩ := List.mem_map.mp h
      have hX : x.type = 'X' := congrArg Prod.snd hxe
      have hall := (hLSP x hx).1
      rw [hX] at hall
      exact absurd hall (by decide)
  have hrouted := processLines_routed dem o LD LS hLDP hLSP hfullnd
  have hstat_tri : (processLines dem o initState (save_lines st dt o)).stat.map tri =
      st.sym.map tri ++ sentTris "__sym_end" st.sym.getLast? := by
    rw [hL, hrouted.1, hLSdef, List.map_append,
      map_tri_lineSym_written dem o hdem st.sym hstB,
      sentLines_map_tri dem _ o _ hdem fun l hl => (hstL l hl).2]
  have hdyn_tri : (processLines dem o initState (save_lines st dt o)).dyn.map tri =
      dt.sym_names.map tri ++ sentTris "__dynsym_end" dt.sym.getLast? := by
    rw [hL, hrouted.2, hLDdef, List.map_append,
      map_tri_lineSym_written dem o hdem dt.sym_names hdtB,
      sentLines_map_tri dem _ o _ hdem fun l hl => hdtL l hl]
  have hstatAddr : (processLines dem o initState (save_lines st dt o)).stat.map Sym.addr =
      st.sym.map Sym.addr ++ sentAddrs st.sym.getLast? := by
    rw [← map_tri_fst, hstat_tri, List.map_append, map_tri_fst, sentTris_map_fst]
  have hsorted : (processLines dem o initState (save_lines st dt o)).stat.Sorted addrLe := by
    have hpwB : List.Pairwise (· ≤ ·) (st.sym.map Sym.addr ++ sentAddrs st.sym.getLast?) :=
      (List.chain'_iff_pairwise.mp hchainB).imp Nat.le_of_lt
    rw [← hstatAddr] at hpwB
    have hpw2 : List.Pairwise (fun a b : Sym => a.addr ≤ b.addr)
        (processLines dem o initState (save_lines st dt o)).stat :=
      List.pairwise_map.mp hpwB
    exact hpw2
  constructor
  · have hRs : (load_symbol_file dem (save_lines st dt o) o).symtab.sym =
        sortByAddr (processLines dem o initState (save_lines st dt o)).stat := rfl
    have hid : sortByAddr (processLines dem o initState (save_lines st dt o)).stat =
        (processLines dem o initState (save_lines st dt o)).stat :=
      hsorted.insertionSort_eq
    rw [hRs, hid]
    exact hstat_tri
  · by_cases hlen : (processLines dem o initState (save_lines st dt o)).dyn.length = 0
    · have hdnil : (processLines dem o initState (save_lines st dt o)).dyn = [] :=
        List.length_eq_zero.mp hlen
      have hR : (load_symbol_file dem (save_lines st dt o) o).dsymtab = emptySymtab := by
        show (if (processLines dem o initState (save_lines st dt o)).dyn.length = 0
              then emptySymtab
              else sort_dynsymtab (processLines dem o initState (save_lines st dt o)).dyn) =
            emptySymtab
        rw [if_pos hlen]
      rw [hR]
      show ([] : List (Nat × Char × String)) =
        dt.sym_names.map tri ++ sentTris "__dynsym_end" dt.sym.getLast?
      rw [← hdyn_tri, hdnil]
      rfl
    · have hR : (load_symbol_file dem (save_lines st dt o) o).dsymtab =
          sort_dynsymtab (processLines dem o initState (save_lines st dt o)).dyn := by
        show (if (processLines dem o initState (save_lines st dt o)).dyn.length = 0
              then emptySymtab
              else sort_dynsymtab (processLines dem o initState (save_lines st dt o)).dyn) =
            sort_dynsymtab (processLines dem o initState (save_lines st dt o)).dyn
        rw [if_neg hlen]
      have hdaddr : (processLines dem o initState (save_lines st dt o)).dyn.map Sym.addr =
          dt.sym_names.map Sym.addr ++ sentAddrs dt.sym.getLast? := by
        rw [← map_tri_fst, hdyn_tri, List.map_append, map_tri_fst, sentTris_map_fst]
      rw [hR, sort_dynsymtab_sym_names_of_nodup _ (by rw [hdaddr]; exact hnd)]
      exact hdyn_tri

/-- Concrete loaded tables for the round-trip witness. -/
def stW : Symtab := ⟨[⟨0x1000, 16, 'T', "foo"⟩], [⟨0x1000, 16, 'T', "foo"⟩], true⟩

def dtW : Symtab := ⟨[⟨0x500, 8, 'P', "p1"⟩], [⟨0x500, 8, 'P', "p1"⟩], false⟩

/-- Witness for the amended C2 at a one-entry static and one-entry dynamic
table saved and re-read at offset 0. -/
theorem save_load_roundtrip_witness :
    (load_symbol_file id (save_lines stW dtW 0) 0).symtab.sym.map tri =
      stW.sym.map tri ++ sentTris "__sym_end" stW.sym.getLast? ∧
    (load_symbol_file id (save_lines stW dtW 0) 0).dsymtab.sym_names.map tri =
      dtW.sym_names.map tri ++ sentTris "__dynsym_end" dtW.sym.getLast? :=
  save_load_roundtrip id 0 stW dtW (fun _ => rfl)
    (by simp [stW, List.chain'_singleton])
    (by decide) (by decide)
    (fun l hl => by
      have h : l = ⟨0x1000, 16, 'T', "foo"⟩ := by
        have h2 := hl
        simp [stW] at h2
        exact h2.symm
      rw [h]
      exact ⟨by decide, by decide⟩)
    (by decide) (by decide) (by decide)
    (fun l hl => by
      have h : l = ⟨0x500, 8, 'P', "p1"⟩ := by
        have h2 := hl
        simp [dtW] at h2
        exact h2.symm
      rw [h]
      decide)
    (by decide)

end Uftrace
